import Mathlib

/-!
Verification of the PVR texture decoder (`pvr.py`).

The decoder is embedded shallowly: Python integers become `Nat`, byte strings
become `List Nat` (each element a byte value), 16-bit words become `Nat`,
partial operations (list indexing, `struct.unpack` with a fixed size) become
`Option`-valued functions, and `verify` becomes an `Except`.

The Python colour unpackers compute `int (255*f/31.0)` with IEEE doubles; for
the field ranges that occur (`f ≤ 63`) the double quotient is never within
`2⁻³⁰` of an integer unless it is exactly an integer (the numerator is at most
`16065` and the denominators are `15`, `31`, `63`), so truncating the double
equals truncating the rational, i.e. `Nat` floor division `255 * f / d`.
-/

set_option maxRecDepth 20000

namespace PVR

/-- The four bit-spreading passes of `morton` (source lines 83–90), applied to
one coordinate. -/
def part1by1 (x : Nat) : Nat :=
  let x1 := (x ||| (x <<< 8)) &&& 0x00ff00ff
  let x2 := (x1 ||| (x1 <<< 4)) &&& 0x0f0f0f0f
  let x3 := (x2 ||| (x2 <<< 2)) &&& 0x33333333
  let x4 := (x3 ||| (x3 <<< 1)) &&& 0x55555555
  x4

/-- Function `morton` (source lines 82–91): interleave the bits of `x` (even positions)
and `y` (odd positions). -/
def morton (x y : Nat) : Nat :=
  part1by1 x ||| (part1by1 y <<< 1)

/-- Function `unpack1555` (source lines 94–99). `int (255*((colour>>15)&31))` is exact
integer arithmetic in Python; the three scaled channels truncate. -/
def unpack1555 (colour : Nat) : List Nat :=
  let a := 255 * ((colour >>> 15) &&& 31)
  let r := 255 * ((colour >>> 10) &&& 31) / 31
  let g := 255 * ((colour >>> 5) &&& 31) / 31
  let b := 255 * (colour &&& 31) / 31
  [r, g, b, a]

/-- Function `unpack4444` (source lines 101–106). -/
def unpack4444 (colour : Nat) : List Nat :=
  let a := 255 * ((colour >>> 12) &&& 15) / 15
  let r := 255 * ((colour >>> 8) &&& 15) / 15
  let g := 255 * ((colour >>> 4) &&& 15) / 15
  let b := 255 * (colour &&& 15) / 15
  [r, g, b, a]

/-- Function `unpack565` (source lines 108–112). -/
def unpack565 (colour : Nat) : List Nat :=
  let r := 255 * ((colour >>> 11) &&& 31) / 31
  let g := 255 * ((colour >>> 5) &&& 63) / 63
  let b := 255 * (colour &&& 31) / 31
  [r, g, b]

/-- Model of `struct.unpack` with format `<nH`: consecutive little-endian 16-bit words.
A trailing odd byte is dropped (callers check the exact length separately,
as `struct.unpack` demands an exact size). -/
def words16 : List Nat → List Nat
  | a :: b :: rest => (a + 256 * b) :: words16 rest
  | _ => []

/-- Effective start index of the Python slice `l[start:]`: a negative start
counts from the end of the list and is then clamped to `0`. -/
def pystart (len : Nat) (start : Int) : Nat :=
  if start < 0 then (max 0 (start + len)).toNat else min start.toNat len

/-- The Python slice `l[start : len(l)]`. -/
def pysliceFrom (l : List Nat) (start : Int) : List Nat :=
  l.drop (pystart l.length start)

/-- One 2×2 block of `vq_decode` (source lines 138–142): look the block index
up in the table at the morton address, then emit codebook entries `4b+0, 4b+2`
into the upper row and `4b+1, 4b+3` into the lower row, in that order. -/
def vqBlock (book lut : List Nat) (decoder : Nat → List Nat) (i j : Nat) :
    Option (List Nat × List Nat) := do
  let idx ← lut[morton i j]?
  let entry := 4 * idx
  let c0 ← book[entry]?
  let c1 ← book[entry + 1]?
  let c2 ← book[entry + 2]?
  let c3 ← book[entry + 3]?
  pure (decoder c0 ++ decoder c2, decoder c1 ++ decoder c3)

/-- The inner `j` loop of `vq_decode` (source lines 135–142), building the
upper and lower rows of one block row. -/
def vqRowPair (book lut : List Nat) (decoder : Nat → List Nat) (i w2 : Nat) :
    Option (List Nat × List Nat) :=
  (List.range w2).foldlM
    (fun acc j => do
      let blk ← vqBlock book lut decoder i j
      pure (acc.1 ++ blk.1, acc.2 ++ blk.2))
    ([], [])

/-- The outer `i` loop of `vq_decode` (source lines 134–146). -/
def vq_decode_core (width height : Nat) (book lut : List Nat)
    (decoder : Nat → List Nat) : Option (List (List Nat)) :=
  (List.range (height / 2)).foldlM
    (fun pix i => do
      let rows ← vqRowPair book lut decoder i (width / 2)
      pure (pix ++ [rows.1, rows.2]))
    []

/-- Function `vq_decode` (source lines 116–147): read the 2048-byte codebook as 1024
little-endian words (`struct.unpack` fails if fewer bytes are available),
take the final `width*height//4` bytes as the index table, then run the
block loops. -/
def vq_decode (width height : Nat) (raw : List Nat) (decoder : Nat → List Nat) :
    Option (List (List Nat)) :=
  if 2048 ≤ raw.length then
    let book := words16 (raw.take 2048)
    let lut := pysliceFrom raw ((raw.length : Int) - (width * height / 4 : Nat))
    vq_decode_core width height book lut decoder
  else
    none

/-- The word list of `morton_decode` (source lines 160–166): the slice as
16-bit words, padded with zeros to `max(width,height)²` entries when the
image is not square (`squared` and the `bytes (...)` extension). -/
def twiddle_data (width height : Nat) (mip : List Nat) : List Nat :=
  let data0 := words16 mip
  if width = height then data0
  else
    let squared := if width < height then height * height else width * width
    data0 ++ List.replicate (squared - data0.length) 0

/-- The body of `morton_decode` after the mipmap skip (source lines 160–175):
`struct.unpack` demands the slice hold exactly `width*height` words, and
pixel `(i, j)` reads word `morton j i` of the padded word list. -/
def morton_decode_core (width height : Nat) (mip : List Nat)
    (decoder : Nat → List Nat) : Option (List (List Nat)) :=
  if mip.length = 2 * (width * height) then
    (List.range height).foldlM
      (fun pix i => do
        let row ← (List.range width).foldlM
          (fun r j => do
            let colour ← (twiddle_data width height mip)[morton j i]?
            pure (r ++ decoder colour))
          []
        pure (pix ++ [row]))
      []
  else
    none

/-- Function `morton_decode` (source lines 149–175): seek to the trailing
`width*height*2`-byte block, then decode it. -/
def morton_decode (width height : Nat) (raw : List Nat)
    (decoder : Nat → List Nat) : Option (List (List Nat)) :=
  morton_decode_core width height
    (pysliceFrom raw ((raw.length : Int) - (width * height * 2 : Nat))) decoder

/-- The body of `linear_decode` after the mipmap skip (source lines 185–192). -/
def linear_decode_core (width height : Nat) (mip : List Nat)
    (decoder : Nat → List Nat) : Option (List (List Nat)) :=
  if mip.length = 2 * (width * height) then
    let data := words16 mip
    (List.range height).foldlM
      (fun pix i => do
        let row ← (List.range width).foldlM
          (fun r j => do
            let colour ← data[i * width + j]?
            pure (r ++ decoder colour))
          []
        pure (pix ++ [row]))
      []
  else
    none

/-- Function `linear_decode` (source lines 177–192). -/
def linear_decode (width height : Nat) (raw : List Nat)
    (decoder : Nat → List Nat) : Option (List (List Nat)) :=
  linear_decode_core width height
    (pysliceFrom raw ((raw.length : Int) - (width * height * 2 : Nat))) decoder

/-- Source line 14. -/
def MAX_WIDTH : Nat := 0x80000

/-- Source line 15. -/
def MAX_HEIGHT : Nat := 0x80000

/-- Function `verify` (source lines 7–9): raise unless the condition holds. -/
def verify (cond : Bool) (msg : String) : Except String Unit :=
  if cond then .ok () else .error msg

/-- The dimension validation of `pvr_decode` (source lines 76–77). -/
def check_dims (width height : Nat) : Except String Unit := do
  verify (decide (width ≤ MAX_WIDTH)) "width out of range"
  verify (decide (height ≤ MAX_HEIGHT)) "height out of range"

/-- Pixel-encoding codes (source lines 18–24). -/
def ARGB1555 : Nat := 0x0
def RGB565 : Nat := 0x1
def ARGB4444 : Nat := 0x2
def YUV422 : Nat := 0x3
def BUMP : Nat := 0x4

/-- Layout codes (source lines 27–40). -/
def SQUARE_TWIDDLED : Nat := 0x1
def SQUARE_TWIDDLED_MIPMAP : Nat := 0x2
def VQ : Nat := 0x3
def VQ_MIPMAP : Nat := 0x4
def RECTANGULAR_TWIDDLED : Nat := 0xD

/-- The layout dispatch repeated for each implemented encoding
(source lines 199–204, 206–211, 213–218). -/
def layout_decode (fmt width height : Nat) (data : List Nat)
    (decoder : Nat → List Nat) : Option (List (List Nat)) :=
  if fmt = SQUARE_TWIDDLED ∨ fmt = SQUARE_TWIDDLED_MIPMAP ∨
      fmt = RECTANGULAR_TWIDDLED then
    morton_decode width height data decoder
  else if fmt = VQ ∨ fmt = VQ_MIPMAP then
    vq_decode width height data decoder
  else
    linear_decode width height data decoder

/-- The encoding dispatch of `pvr_decode` (source lines 198–221): `none`
models the `'Unsupported encoding'` fall-through; `some` carries the decode
result together with the channel tag. -/
def pvr_dispatch (px fmt width height : Nat) (data : List Nat) :
    Option (Option (List (List Nat)) × String) :=
  if px = ARGB1555 then
    some (layout_decode fmt width height data unpack1555, "RGBA")
  else if px = ARGB4444 then
    some (layout_decode fmt width height data unpack4444, "RGBA")
  else if px = RGB565 then
    some (layout_decode fmt width height data unpack565, "RGB")
  else
    none

/-- The width field read by `main` (source line 238) with
`unpack ("<IbbHHH", ...)`: bytes 8–9 of the 12-byte header, little-endian. -/
def header_width (hdr : List Nat) : Option Nat := do
  let lo ← hdr[8]?
  let hi ← hdr[9]?
  pure (lo + 256 * hi)

/-- The height field read by `main` (source line 238): bytes 10–11,
little-endian. -/
def header_height (hdr : List Nat) : Option Nat := do
  let lo ← hdr[10]?
  let hi ← hdr[11]?
  pure (lo + 256 * hi)

/-! ## Specification-side definitions -/

/-- Nearest-integer rounding of `n / d`, as the spec's `round(255 * field / d)`
(the denominators are odd, so ties never arise). -/
def specRound (n d : Nat) : Nat := (2 * n + d) / (2 * d)

/-- Extraction of the bits at even positions, the mathematical inverse
direction of the interleave; `fuel` bounds the number of extracted bits. -/
def unzipE : Nat → Nat → Nat
  | 0, _ => 0
  | fuel + 1, n => n % 2 + 2 * unzipE fuel (n / 4)

/-! ## Bit-level theory of `morton` -/

theorem maskBit8 (i : Nat) :
    (0x00ff00ff : Nat).testBit i = decide (i < 32 ∧ i % 16 < 8) := by
  rcases Nat.lt_or_ge i 32 with h | h
  · interval_cases i <;> decide
  · rw [Nat.testBit_lt_two_pow, decide_eq_false (by omega)]
    calc (0x00ff00ff : Nat) < 2 ^ 32 := by norm_num
    _ ≤ 2 ^ i := Nat.pow_le_pow_right (by norm_num) h

theorem maskBit4 (i : Nat) :
    (0x0f0f0f0f : Nat).testBit i = decide (i < 32 ∧ i % 8 < 4) := by
  rcases Nat.lt_or_ge i 32 with h | h
  · interval_cases i <;> decide
  · rw [Nat.testBit_lt_two_pow, decide_eq_false (by omega)]
    calc (0x0f0f0f0f : Nat) < 2 ^ 32 := by norm_num
    _ ≤ 2 ^ i := Nat.pow_le_pow_right (by norm_num) h

theorem maskBit2 (i : Nat) :
    (0x33333333 : Nat).testBit i = decide (i < 32 ∧ i % 4 < 2) := by
  rcases Nat.lt_or_ge i 32 with h | h
  · interval_cases i <;> decide
  · rw [Nat.testBit_lt_two_pow, decide_eq_false (by omega)]
    calc (0x33333333 : Nat) < 2 ^ 32 := by norm_num
    _ ≤ 2 ^ i := Nat.pow_le_pow_right (by norm_num) h

theorem maskBit1 (i : Nat) :
    (0x55555555 : Nat).testBit i = decide (i < 32 ∧ i % 2 = 0) := by
  rcases Nat.lt_or_ge i 32 with h | h
  · interval_cases i <;> decide
  · rw [Nat.testBit_lt_two_pow, decide_eq_false (by omega)]
    calc (0x55555555 : Nat) < 2 ^ 32 := by norm_num
    _ ≤ 2 ^ i := Nat.pow_le_pow_right (by norm_num) h

/-- For a 16-bit input the bit-spreading passes place bit `k` of `x` at
position `2k` of the output and clear the odd positions. -/
theorem part1by1_testBit {x : Nat} (hx : x < 65536) (i : Nat) :
    (part1by1 x).testBit i = (decide (i % 2 = 0) && x.testBit (i / 2)) := by
  have hx16 : ∀ j, 16 ≤ j → x.testBit j = false := fun j hj =>
    Nat.testBit_lt_two_pow (lt_of_lt_of_le hx (by
      calc (65536 : Nat) = 2 ^ 16 := by norm_num
      _ ≤ 2 ^ j := Nat.pow_le_pow_right (by norm_num) hj))
  rcases Nat.lt_or_ge i 32 with h32 | h32
  · interval_cases i <;>
      simp [part1by1, maskBit8, maskBit4, maskBit2, maskBit1, hx16]
  · have hle : part1by1 x ≤ 0x55555555 := Nat.and_le_right
    have h1 : (part1by1 x).testBit i = false :=
      Nat.testBit_lt_two_pow (lt_of_le_of_lt hle (by
        calc (0x55555555 : Nat) < 2 ^ 32 := by norm_num
        _ ≤ 2 ^ i := Nat.pow_le_pow_right (by norm_num) h32))
    have h2 : x.testBit (i / 2) = false := hx16 _ (by omega)
    simp [h1, h2]

/-- The interleave always fits in 32 bits, whatever the inputs: the final
masks of the two passes bound each half. -/
theorem morton_lt_two_pow_32 (x y : Nat) : morton x y < 4294967296 := by
  have h0 : (2 : Nat) ^ 32 = 4294967296 := by norm_num
  have h1 : part1by1 x ≤ 0x55555555 := Nat.and_le_right
  have h2 : part1by1 y ≤ 0x55555555 := Nat.and_le_right
  have h3 : part1by1 y <<< 1 = 2 * part1by1 y := by
    rw [Nat.shiftLeft_eq]; ring
  have h4 : part1by1 x < 2 ^ 32 := by omega
  have h5 : part1by1 y <<< 1 < 2 ^ 32 := by omega
  have h6 : morton x y < 2 ^ 32 := Nat.or_lt_two_pow h4 h5
  omega

/-- Bit `i` of `morton x y` is bit `i/2` of `x` when `i` is even and bit
`i/2` of `y` when `i` is odd. -/
theorem morton_testBit {x y : Nat} (hx : x < 65536) (hy : y < 65536)
    (i : Nat) :
    (morton x y).testBit i =
      ((decide (i % 2 = 0) && x.testBit (i / 2)) ||
       (decide (i % 2 = 1) && y.testBit (i / 2))) := by
  unfold morton
  rw [Nat.testBit_or, Nat.testBit_shiftLeft, part1by1_testBit hx]
  rcases Nat.eq_zero_or_pos i with h0 | h0
  · subst h0; simp
  · rw [part1by1_testBit hy]
    obtain he | ho : i % 2 = 0 ∨ i % 2 = 1 := by omega
    · have h1 : (i - 1) % 2 = 1 := by omega
      simp [he, h1]
    · have h1 : (i - 1) % 2 = 0 := by omega
      have h2 : (i - 1) / 2 = i / 2 := by omega
      have h3 : 1 ≤ i := h0
      simp [ho, h1, h2, h3]

/-- Interleaving sends bit `k` of `x` to position `2k` and bit `k` of `y` to
position `2k+1`. -/
theorem morton_spread {x y : Nat} (hx : x < 65536) (hy : y < 65536)
    (k : Nat) :
    (morton x y).testBit (2 * k) = x.testBit k ∧
    (morton x y).testBit (2 * k + 1) = y.testBit k := by
  have h1 : 2 * k % 2 = 0 := by omega
  have h2 : 2 * k / 2 = k := by omega
  have h3 : (2 * k + 1) % 2 = 1 := by omega
  have h4 : (2 * k + 1) / 2 = k := by omega
  constructor <;> rw [morton_testBit hx hy] <;> simp [h1, h2, h3, h4]

/-- The interleave is injective on 16-bit coordinate pairs. -/
theorem morton_inj {x y a b : Nat} (hx : x < 65536) (hy : y < 65536)
    (ha : a < 65536) (hb : b < 65536) (h : morton x y = morton a b) :
    x = a ∧ y = b := by
  constructor <;> apply Nat.eq_of_testBit_eq <;> intro k
  · rw [← (morton_spread hx hy k).1, ← (morton_spread ha hb k).1, h]
  · rw [← (morton_spread hx hy k).2, ← (morton_spread ha hb k).2, h]

/-- Bit `k` of `unzipE fuel n` is bit `2k` of `n`, for `k < fuel`. -/
theorem unzipE_testBit : ∀ fuel n k : Nat,
    (unzipE fuel n).testBit k = (decide (k < fuel) && n.testBit (2 * k)) := by
  intro fuel
  induction fuel with
  | zero => intro n k; simp [unzipE]
  | succ f ih =>
    intro n k
    cases k with
    | zero =>
      have h1 : (n % 2 + 2 * unzipE f (n / 4)) % 2 = n % 2 := by omega
      simp [unzipE, Nat.testBit_zero, h1]
    | succ k =>
      have h1 : (n % 2 + 2 * unzipE f (n / 4)) / 2 = unzipE f (n / 4) := by
        omega
      rw [unzipE, Nat.testBit_add_one, h1, ih]
      have h2 : (n / 4).testBit (2 * k) = n.testBit (2 * (k + 1)) := by
        rw [Nat.testBit_to_div_mod, Nat.testBit_to_div_mod,
          Nat.div_div_eq_div_mul]
        have h3 : 4 * 2 ^ (2 * k) = 2 ^ (2 * (k + 1)) := by
          rw [show 2 * (k + 1) = 2 * k + 2 by omega, Nat.pow_add]
          ring
        rw [h3]
      rw [h2]
      have h4 : decide (k < f) = decide (k + 1 < f + 1) := by
        simp
      rw [h4]

/-- Extraction `unzipE fuel` produces a value below `2 ^ fuel`. -/
theorem unzipE_lt (fuel n : Nat) : unzipE fuel n < 2 ^ fuel := by
  apply Nat.lt_pow_two_of_testBit
  intro j hj
  rw [unzipE_testBit, decide_eq_false (by omega)]
  simp

/-- Every 32-bit value is the interleave of the 16-bit values obtained by
reading off its even-position and odd-position bits. -/
theorem morton_surj_aux {n : Nat} (hn : n < 4294967296) :
    unzipE 16 n < 65536 ∧ unzipE 16 (n / 2) < 65536 ∧
    morton (unzipE 16 n) (unzipE 16 (n / 2)) = n := by
  have hx : unzipE 16 n < 65536 := by
    have := unzipE_lt 16 n; norm_num at this; exact this
  have hy : unzipE 16 (n / 2) < 65536 := by
    have := unzipE_lt 16 (n / 2); norm_num at this; exact this
  refine ⟨hx, hy, ?_⟩
  apply Nat.eq_of_testBit_eq
  intro i
  rw [morton_testBit hx hy, unzipE_testBit, unzipE_testBit]
  have hbig : ∀ j, 32 ≤ j → n.testBit j = false := fun j hj =>
    Nat.testBit_lt_two_pow (lt_of_lt_of_le hn (by
      calc (4294967296 : Nat) = 2 ^ 32 := by norm_num
      _ ≤ 2 ^ j := Nat.pow_le_pow_right (by norm_num) hj))
  obtain he | ho : i % 2 = 0 ∨ i % 2 = 1 := by omega
  · have h2 : 2 * (i / 2) = i := by omega
    rcases Nat.lt_or_ge i 32 with h32 | h32
    · have h5 : i / 2 < 16 := by omega
      simp [he, h2, h5]
    · have h5 : ¬(i / 2 < 16) := by omega
      rw [hbig i h32]
      simp [he, h5]
  · have hodd : (n / 2).testBit (2 * (i / 2)) = n.testBit i := by
      rw [Nat.testBit_to_div_mod, Nat.testBit_to_div_mod,
        Nat.div_div_eq_div_mul]
      have h3 : 2 * 2 ^ (2 * (i / 2)) = 2 ^ i := by
        have hk : i = 2 * (i / 2) + 1 := by omega
        calc 2 * 2 ^ (2 * (i / 2)) = 2 ^ (2 * (i / 2) + 1) := by
              rw [Nat.pow_succ]; ring
        _ = 2 ^ i := by rw [← hk]
      rw [h3]
    rcases Nat.lt_or_ge i 32 with h32 | h32
    · have h5 : i / 2 < 16 := by omega
      simp [ho, hodd, h5]
    · have h5 : ¬(i / 2 < 16) := by omega
      rw [hbig i h32]
      simp [ho, h5]

/-- A value below `2 ^ m` has no bit at positions `≥ m`. -/
theorem tb_false {x m j : Nat} (hx : x < 2 ^ m) (hj : m ≤ j) :
    x.testBit j = false :=
  Nat.testBit_lt_two_pow
    (lt_of_lt_of_le hx (Nat.pow_le_pow_right (by norm_num) hj))

/-- Interleaving two coordinates below `2 ^ k` stays below `2 ^ k · 2 ^ k`:
for `k ≤ 16` because the spread bits stop below position `2k`, and for larger
`k` because the interleave never exceeds 32 bits. -/
theorem morton_lt_sq {k x y : Nat} (hx : x < 2 ^ k) (hy : y < 2 ^ k) :
    morton x y < 2 ^ k * 2 ^ k := by
  have hsq : (2 : Nat) ^ k * 2 ^ k = 2 ^ (2 * k) := by
    rw [show 2 * k = k + k by omega, Nat.pow_add]
  rcases le_or_lt k 16 with hk | hk
  · have hx16 : x < 65536 := lt_of_lt_of_le hx (by
      calc (2 : Nat) ^ k ≤ 2 ^ 16 := Nat.pow_le_pow_right (by norm_num) hk
      _ = 65536 := by norm_num)
    have hy16 : y < 65536 := lt_of_lt_of_le hy (by
      calc (2 : Nat) ^ k ≤ 2 ^ 16 := Nat.pow_le_pow_right (by norm_num) hk
      _ = 65536 := by norm_num)
    rw [hsq]
    apply Nat.lt_pow_two_of_testBit
    intro i hi
    rw [morton_testBit hx16 hy16]
    have hxb : x.testBit (i / 2) = false := tb_false hx (by omega)
    have hyb : y.testBit (i / 2) = false := tb_false hy (by omega)
    simp [hxb, hyb]
  · have h1 : morton x y < 4294967296 := morton_lt_two_pow_32 x y
    have h2 : (4294967296 : Nat) = 2 ^ 32 := by norm_num
    have h3 : (2 : Nat) ^ 32 ≤ 2 ^ (2 * k) :=
      Nat.pow_le_pow_right (by norm_num) (by omega)
    omega

/-! ## Fold and list helpers -/

/-- An `Option`-valued left fold over `List.range n` whose step always
succeeds computes the corresponding pure fold. -/
theorem foldlM_range_option {α : Type} (f : α → Nat → Option α)
    (g : α → Nat → α) :
    ∀ (n : Nat) (init : α), (∀ acc j, j < n → f acc j = some (g acc j)) →
      (List.range n).foldlM f init = some ((List.range n).foldl g init) := by
  intro n
  induction n with
  | zero => intro init h; simp
  | succ m ih =>
    intro init h
    rw [List.range_succ, List.foldlM_append, List.foldl_append]
    rw [ih init (fun acc j hj => h acc j (by omega))]
    simp [h _ m (by omega)]

/-- Accumulating `acc ++ q j` over `List.range n` concatenates the pieces. -/
theorem foldl_append_flat {γ : Type} (q : Nat → List γ) :
    ∀ (n : Nat) (init : List γ),
      (List.range n).foldl (fun acc j => acc ++ q j) init =
        init ++ (List.range n).flatMap q := by
  intro n
  induction n with
  | zero => intro init; simp
  | succ m ih =>
    intro init
    rw [List.range_succ, List.foldl_append, ih, List.flatMap_append]
    simp

/-- Accumulating `acc ++ [p i]` over `List.range n` builds the map. -/
theorem foldl_append_singleton {α : Type} (p : Nat → α) :
    ∀ (n : Nat) (init : List α),
      (List.range n).foldl (fun acc i => acc ++ [p i]) init =
        init ++ (List.range n).map p := by
  intro n
  induction n with
  | zero => intro init; simp
  | succ m ih =>
    intro init
    rw [List.range_succ, List.foldl_append, ih, List.map_append]
    simp

/-- Pairwise accumulation over `List.range n` concatenates both components. -/
theorem foldl_pair_append {γ : Type} (t b : Nat → List γ) :
    ∀ (n : Nat) (i1 i2 : List γ),
      (List.range n).foldl (fun acc j => (acc.1 ++ t j, acc.2 ++ b j)) (i1, i2) =
        (i1 ++ (List.range n).flatMap t, i2 ++ (List.range n).flatMap b) := by
  intro n
  induction n with
  | zero => intro i1 i2; simp
  | succ m ih =>
    intro i1 i2
    rw [List.range_succ, List.foldl_append, ih, List.flatMap_append,
      List.flatMap_append]
    simp

/-- The interleaved two-row-per-step output shape of the VQ decoder. -/
def pairRows {α : Type} (f g : Nat → α) (n : Nat) : List α :=
  (List.range n).flatMap fun i => [f i, g i]

theorem pairRows_succ {α : Type} (f g : Nat → α) (n : Nat) :
    pairRows f g (n + 1) = pairRows f g n ++ [f n, g n] := by
  unfold pairRows
  rw [List.range_succ, List.flatMap_append]
  simp

theorem pairRows_length {α : Type} (f g : Nat → α) (n : Nat) :
    (pairRows f g n).length = 2 * n := by
  induction n with
  | zero => simp [pairRows]
  | succ m ih =>
    rw [pairRows_succ]
    simp [ih]
    omega

theorem pairRows_get_even {α : Type} (f g : Nat → α) :
    ∀ n i, i < n → (pairRows f g n)[2 * i]? = some (f i) := by
  intro n
  induction n with
  | zero => intro i hi; omega
  | succ m ih =>
    intro i hi
    rw [pairRows_succ]
    rcases Nat.lt_or_ge i m with h | h
    · rw [List.getElem?_append_left]
      · exact ih i h
      · rw [pairRows_length]; omega
    · have him : i = m := by omega
      subst him
      rw [List.getElem?_append_right]
      · rw [pairRows_length]
        have h0 : 2 * i - 2 * i = 0 := by omega
        simp [h0]
      · rw [pairRows_length]

theorem pairRows_get_odd {α : Type} (f g : Nat → α) :
    ∀ n i, i < n → (pairRows f g n)[2 * i + 1]? = some (g i) := by
  intro n
  induction n with
  | zero => intro i hi; omega
  | succ m ih =>
    intro i hi
    rw [pairRows_succ]
    rcases Nat.lt_or_ge i m with h | h
    · rw [List.getElem?_append_left]
      · exact ih i h
      · rw [pairRows_length]; omega
    · have him : i = m := by omega
      subst him
      rw [List.getElem?_append_right]
      · rw [pairRows_length]
        have h0 : 2 * i + 1 - 2 * i = 1 := by omega
        simp [h0]
      · rw [pairRows_length]; omega

theorem words16_length : ∀ l : List Nat, (words16 l).length = l.length / 2 := by
  intro l
  induction l using words16.induct with
  | case1 a b rest ih => simp [words16, ih]; omega
  | case2 l h => cases l with
    | nil => simp [words16]
    | cons a t =>
      cases t with
      | nil => simp [words16]
      | cons b t2 => exact absurd rfl (h a b t2)

/-- Word reading distributes over an append at an even boundary. -/
theorem words16_append : ∀ l r : List Nat, l.length % 2 = 0 →
    words16 (l ++ r) = words16 l ++ words16 r := by
  intro l
  induction l using words16.induct with
  | case1 a b rest ih =>
    intro r hr
    simp only [List.cons_append]
    rw [words16, words16, ih]
    · simp
    · simp at hr
      omega
  | case2 l h =>
    intro r hr
    cases l with
    | nil => simp [words16]
    | cons a t =>
      cases t with
      | nil => simp at hr
      | cons b t2 => exact absurd rfl (h a b t2)

theorem words16_replicate : ∀ n : Nat,
    words16 (List.replicate (2 * n) 0) = List.replicate n 0 := by
  intro n
  induction n with
  | zero => rfl
  | succ m ih =>
    rw [show 2 * (m + 1) = 2 * m + 1 + 1 by ring, List.replicate_succ,
      List.replicate_succ, words16, ih, List.replicate_succ]

/-- Python's `raw[size - base : size]` is `List.drop (size - base)` whenever
`base ≤ size`. -/
theorem pysliceFrom_sub (l : List Nat) (base : Nat) (hb : base ≤ l.length) :
    pysliceFrom l ((l.length : Int) - base) = l.drop (l.length - base) := by
  unfold pysliceFrom pystart
  rw [if_neg (by omega)]
  congr 1
  omega

/-! ## Spec-side views of the VQ decoder -/

/-- The codebook: the first 2048 payload bytes as 1024 words. -/
def vqBook (raw : List Nat) : List Nat := words16 (raw.take 2048)

/-- The index table: the final `width*height/4` payload bytes. -/
def vqIndexTable (width height : Nat) (raw : List Nat) : List Nat :=
  raw.drop (raw.length - width * height / 4)

/-- The codebook base entry of the block at grid position `(i, j)`:
`4 * indexTable[interleave (i, j)]`. -/
def vqEntry (width height : Nat) (raw : List Nat) (i j : Nat) : Nat :=
  4 * (vqIndexTable width height raw).getD (morton i j) 0

/-- The upper output row contributed by block row `i`: codebook entries `+0`
and `+2` of each block, left to right. -/
def vqTopRow (width height : Nat) (raw : List Nat) (d : Nat → List Nat)
    (i : Nat) : List Nat :=
  (List.range (width / 2)).flatMap fun j =>
    d ((vqBook raw).getD (vqEntry width height raw i j) 0) ++
    d ((vqBook raw).getD (vqEntry width height raw i j + 2) 0)

/-- The lower output row contributed by block row `i`: codebook entries `+1`
and `+3` of each block, left to right. -/
def vqBottomRow (width height : Nat) (raw : List Nat) (d : Nat → List Nat)
    (i : Nat) : List Nat :=
  (List.range (width / 2)).flatMap fun j =>
    d ((vqBook raw).getD (vqEntry width height raw i j + 1) 0) ++
    d ((vqBook raw).getD (vqEntry width height raw i j + 3) 0)

theorem vqBlock_eq {book lut : List Nat} (d : Nat → List Nat) {i j : Nat}
    (hbook : book.length = 1024) (hv : ∀ v ∈ lut, v < 256)
    (hm : morton i j < lut.length) :
    vqBlock book lut d i j =
      some (d (book.getD (4 * lut.getD (morton i j) 0) 0) ++
              d (book.getD (4 * lut.getD (morton i j) 0 + 2) 0),
            d (book.getD (4 * lut.getD (morton i j) 0 + 1) 0) ++
              d (book.getD (4 * lut.getD (morton i j) 0 + 3) 0)) := by
  have hidx : lut[morton i j]? = some (lut.getD (morton i j) 0) := by
    simp [List.getD_eq_getElem?_getD, List.getElem?_eq_getElem hm]
  have hvlt : lut.getD (morton i j) 0 < 256 := by
    rw [List.getD_eq_getElem?_getD, List.getElem?_eq_getElem hm]
    exact hv _ (List.getElem_mem hm)
  have hbk : ∀ k, k < 1024 → book[k]? = some (book.getD k 0) := by
    intro k hk
    simp [List.getD_eq_getElem?_getD,
      List.getElem?_eq_getElem (show k < book.length by omega)]
  have e0 := hbk (4 * lut.getD (morton i j) 0) (by omega)
  have e1 := hbk (4 * lut.getD (morton i j) 0 + 1) (by omega)
  have e2 := hbk (4 * lut.getD (morton i j) 0 + 2) (by omega)
  have e3 := hbk (4 * lut.getD (morton i j) 0 + 3) (by omega)
  simp only [vqBlock, hidx, e0, e1, e2, e3, Option.bind_eq_bind,
    Option.some_bind]
  rfl

theorem vqRowPair_eq {book lut : List Nat} (d : Nat → List Nat) (i w2 : Nat)
    (hbook : book.length = 1024) (hv : ∀ v ∈ lut, v < 256)
    (hm : ∀ j, j < w2 → morton i j < lut.length) :
    vqRowPair book lut d i w2 =
      some ((List.range w2).flatMap fun j =>
              d (book.getD (4 * lut.getD (morton i j) 0) 0) ++
              d (book.getD (4 * lut.getD (morton i j) 0 + 2) 0),
            (List.range w2).flatMap fun j =>
              d (book.getD (4 * lut.getD (morton i j) 0 + 1) 0) ++
              d (book.getD (4 * lut.getD (morton i j) 0 + 3) 0)) := by
  unfold vqRowPair
  rw [foldlM_range_option _
    (fun acc j =>
      (acc.1 ++ (d (book.getD (4 * lut.getD (morton i j) 0) 0) ++
        d (book.getD (4 * lut.getD (morton i j) 0 + 2) 0)),
       acc.2 ++ (d (book.getD (4 * lut.getD (morton i j) 0 + 1) 0) ++
        d (book.getD (4 * lut.getD (morton i j) 0 + 3) 0))))
    w2 ([], [])
    (fun acc j hj => by rw [vqBlock_eq d hbook hv (hm j hj)]; rfl)]
  rw [foldl_pair_append]
  simp

theorem vq_decode_core_eq {book lut : List Nat} (width height : Nat)
    (d : Nat → List Nat)
    (hbook : book.length = 1024) (hv : ∀ v ∈ lut, v < 256)
    (hm : ∀ i j, i < height / 2 → j < width / 2 → morton i j < lut.length) :
    vq_decode_core width height book lut d =
      some (pairRows
        (fun i => (List.range (width / 2)).flatMap fun j =>
          d (book.getD (4 * lut.getD (morton i j) 0) 0) ++
          d (book.getD (4 * lut.getD (morton i j) 0 + 2) 0))
        (fun i => (List.range (width / 2)).flatMap fun j =>
          d (book.getD (4 * lut.getD (morton i j) 0 + 1) 0) ++
          d (book.getD (4 * lut.getD (morton i j) 0 + 3) 0))
        (height / 2)) := by
  unfold vq_decode_core
  rw [foldlM_range_option _
    (fun pix i => pix ++
      [(List.range (width / 2)).flatMap fun j =>
          d (book.getD (4 * lut.getD (morton i j) 0) 0) ++
          d (book.getD (4 * lut.getD (morton i j) 0 + 2) 0),
        (List.range (width / 2)).flatMap fun j =>
          d (book.getD (4 * lut.getD (morton i j) 0 + 1) 0) ++
          d (book.getD (4 * lut.getD (morton i j) 0 + 3) 0)])
    (height / 2) []
    (fun pix i hi => by
      rw [vqRowPair_eq d i (width / 2) hbook hv (fun j hj => hm i j hi hj)]
      rfl)]
  rw [foldl_append_flat (fun i =>
    [(List.range (width / 2)).flatMap fun j =>
        d (book.getD (4 * lut.getD (morton i j) 0) 0) ++
        d (book.getD (4 * lut.getD (morton i j) 0 + 2) 0),
      (List.range (width / 2)).flatMap fun j =>
        d (book.getD (4 * lut.getD (morton i j) 0 + 1) 0) ++
        d (book.getD (4 * lut.getD (morton i j) 0 + 3) 0)])]
  rfl

/-- Closed form of `vq_decode` on a payload that holds the codebook and the
index table, when every morton lookup lands inside the index table. -/
theorem vq_decode_eq (width height : Nat) (raw : List Nat)
    (d : Nat → List Nat)
    (hlen : 2048 + width * height / 4 ≤ raw.length)
    (hbytes : ∀ v ∈ raw, v < 256)
    (hidx : ∀ i j, i < height / 2 → j < width / 2 →
      morton i j < width * height / 4) :
    vq_decode width height raw d =
      some (pairRows (vqTopRow width height raw d)
        (vqBottomRow width height raw d) (height / 2)) := by
  have hguard : 2048 ≤ raw.length := by omega
  have hb : width * height / 4 ≤ raw.length := by omega
  show (if 2048 ≤ raw.length then
      vq_decode_core width height (words16 (raw.take 2048))
        (pysliceFrom raw ((raw.length : Int) - (width * height / 4 : Nat)))
        d
    else none) =
    some (pairRows (vqTopRow width height raw d)
      (vqBottomRow width height raw d) (height / 2))
  rw [if_pos hguard, pysliceFrom_sub _ _ hb]
  have hbook : (words16 (raw.take 2048)).length = 1024 := by
    rw [words16_length, List.length_take]
    omega
  have hlut_len :
      (raw.drop (raw.length - width * height / 4)).length =
        width * height / 4 := by
    rw [List.length_drop]
    omega
  have hv : ∀ v ∈ raw.drop (raw.length - width * height / 4), v < 256 :=
    fun v hvmem => hbytes v (List.drop_subset _ _ hvmem)
  rw [vq_decode_core_eq width height d hbook hv
    (fun i j hi hj => by rw [hlut_len]; exact hidx i j hi hj)]
  rfl

/-! ## Spec-side views of the tiled (twiddled) decoder -/

/-- The trailing `width*height*2` payload bytes, as 16-bit words. -/
def tiledWords (width height : Nat) (raw : List Nat) : List Nat :=
  words16 (raw.drop (raw.length - width * height * 2))

/-- The word sequence logically padded with zero words up to
`max(width,height)²` total entries. -/
def tiledPadded (width height : Nat) (raw : List Nat) : List Nat :=
  tiledWords width height raw ++
    List.replicate (max width height * max width height - width * height) 0

/-- Output row `i` of the tiled decoder: pixel `(i, j)` decodes the word at
morton address `interleave (j, i)`. -/
def tiledRow (width height : Nat) (raw : List Nat) (d : Nat → List Nat)
    (i : Nat) : List Nat :=
  (List.range width).flatMap fun j =>
    d ((tiledPadded width height raw).getD (morton j i) 0)

theorem tiledWords_length (width height : Nat) (raw : List Nat)
    (hlen : width * height * 2 ≤ raw.length) :
    (tiledWords width height raw).length = width * height := by
  unfold tiledWords
  rw [words16_length, List.length_drop]
  omega

theorem tiledPadded_length (width height : Nat) (raw : List Nat)
    (hlen : width * height * 2 ≤ raw.length) :
    (tiledPadded width height raw).length =
      max width height * max width height := by
  unfold tiledPadded
  rw [List.length_append, List.length_replicate,
    tiledWords_length width height raw hlen]
  have hwh : width * height ≤ max width height * max width height :=
    Nat.mul_le_mul (Nat.le_max_left width height)
      (Nat.le_max_right width height)
  omega

/-- Closed form of `morton_decode` on a payload that holds the pixel words,
when the larger dimension is a power of two (which keeps every morton
address inside the padded word sequence). -/
theorem morton_decode_eq (width height k : Nat) (raw : List Nat)
    (d : Nat → List Nat) (hk : max width height = 2 ^ k)
    (hlen : width * height * 2 ≤ raw.length) :
    morton_decode width height raw d =
      some ((List.range height).map (tiledRow width height raw d)) := by
  unfold morton_decode
  rw [pysliceFrom_sub _ _ (by omega)]

  have hmip : (raw.drop (raw.length - width * height * 2)).length =
      2 * (width * height) := by
    rw [List.length_drop]
    omega
  unfold morton_decode_core
  rw [if_pos hmip]
  have hdata : twiddle_data width height
      (raw.drop (raw.length - width * height * 2)) =
      tiledPadded width height raw := by
    have hw16 : (words16 (raw.drop (raw.length - width * height * 2))).length =
        width * height := tiledWords_length width height raw hlen
    simp only [twiddle_data]
    rcases eq_or_ne width height with heq | hne
    · rw [if_pos heq]
      unfold tiledPadded tiledWords
      rw [heq]
      simp [Nat.max_self]
    · rw [if_neg hne]
      unfold tiledPadded tiledWords
      congr 1
      rw [hw16]
      congr 1
      rcases Nat.lt_or_ge width height with hlt | hge
      · rw [if_pos hlt, Nat.max_eq_right (Nat.le_of_lt hlt)]
      · have hgt : height < width := by omega
        rw [if_neg (by omega), Nat.max_eq_left (Nat.le_of_lt hgt)]
  rw [hdata]
  have hbound : ∀ i j, i < height → j < width →
      morton j i < (tiledPadded width height raw).length := by
    intro i j hi hj
    rw [tiledPadded_length width height raw hlen, hk]
    exact morton_lt_sq
      (lt_of_lt_of_le hj (le_trans (Nat.le_max_left width height) (le_of_eq hk)))
      (lt_of_lt_of_le hi (le_trans (Nat.le_max_right width height) (le_of_eq hk)))
  have hget : ∀ i j, i < height → j < width →
      (tiledPadded width height raw)[morton j i]? =
        some ((tiledPadded width height raw).getD (morton j i) 0) := by
    intro i j hi hj
    simp [List.getD_eq_getElem?_getD,
      List.getElem?_eq_getElem (hbound i j hi hj)]
  rw [foldlM_range_option _
    (fun pix i => pix ++ [tiledRow width height raw d i]) height []
    (fun pix i hi => by
      rw [foldlM_range_option _
        (fun r j => r ++ d ((tiledPadded width height raw).getD (morton j i) 0))
        width []
        (fun r j hj => by rw [hget i j hi hj]; rfl)]
      rw [foldl_append_flat
        (fun j => d ((tiledPadded width height raw).getD (morton j i) 0))]
      rfl)]
  rw [foldl_append_singleton (tiledRow width height raw d)]
  rfl

/-! ## Dependence of the decoders on the payload regions they read -/

theorem morton_decode_tail_only (width height : Nat) (raw1 raw2 : List Nat)
    (d : Nat → List Nat)
    (h1 : width * height * 2 ≤ raw1.length)
    (h2 : width * height * 2 ≤ raw2.length)
    (heq : raw1.drop (raw1.length - width * height * 2) =
      raw2.drop (raw2.length - width * height * 2)) :
    morton_decode width height raw1 d = morton_decode width height raw2 d := by
  unfold morton_decode
  rw [pysliceFrom_sub _ _ (by omega), pysliceFrom_sub _ _ (by omega), heq]

theorem linear_decode_tail_only (width height : Nat) (raw1 raw2 : List Nat)
    (d : Nat → List Nat)
    (h1 : width * height * 2 ≤ raw1.length)
    (h2 : width * height * 2 ≤ raw2.length)
    (heq : raw1.drop (raw1.length - width * height * 2) =
      raw2.drop (raw2.length - width * height * 2)) :
    linear_decode width height raw1 d = linear_decode width height raw2 d := by
  unfold linear_decode
  rw [pysliceFrom_sub _ _ (by omega), pysliceFrom_sub _ _ (by omega), heq]

theorem vq_decode_head_tail_only (width height : Nat) (raw1 raw2 : List Nat)
    (d : Nat → List Nat)
    (hl1 : 2048 ≤ raw1.length) (hl2 : 2048 ≤ raw2.length)
    (hb1 : width * height / 4 ≤ raw1.length)
    (hb2 : width * height / 4 ≤ raw2.length)
    (htake : raw1.take 2048 = raw2.take 2048)
    (hdrop : raw1.drop (raw1.length - width * height / 4) =
      raw2.drop (raw2.length - width * height / 4)) :
    vq_decode width height raw1 d = vq_decode width height raw2 d := by
  unfold vq_decode
  rw [if_pos hl1, if_pos hl2]
  show vq_decode_core width height (words16 (raw1.take 2048))
      (pysliceFrom raw1 ((raw1.length : Int) - (width * height / 4 : Nat))) d =
    vq_decode_core width height (words16 (raw2.take 2048))
      (pysliceFrom raw2 ((raw2.length : Int) - (width * height / 4 : Nat))) d
  rw [pysliceFrom_sub _ _ hb1, pysliceFrom_sub _ _ hb2, htake, hdrop]

/-! ## Arithmetic views of the colour unpackers -/

theorem and31_eq_mod (n : Nat) : n &&& 31 = n % 32 := by
  have h : (31 : Nat) = 2 ^ 5 - 1 := by norm_num
  rw [h, Nat.and_pow_two_sub_one_eq_mod]

theorem and15_eq_mod (n : Nat) : n &&& 15 = n % 16 := by
  have h : (15 : Nat) = 2 ^ 4 - 1 := by norm_num
  rw [h, Nat.and_pow_two_sub_one_eq_mod]

theorem and63_eq_mod (n : Nat) : n &&& 63 = n % 64 := by
  have h : (63 : Nat) = 2 ^ 6 - 1 := by norm_num
  rw [h, Nat.and_pow_two_sub_one_eq_mod]

/-- The bit field of width `bits` at offset `lo` of a packed word. -/
def field (c lo bits : Nat) : Nat := c / 2 ^ lo % 2 ^ bits

/-- ARGB1555 unpacking as the spec describes the fields, with truncating
scaling: channels in R,G,B,A order, 5-bit fields at offsets 10, 5, 0 scaled
by `⌊255·f/31⌋`, and the 1-bit alpha at offset 15 expanded to 0 or 255. -/
def argb1555trunc (c : Nat) : List Nat :=
  [255 * field c 10 5 / 31, 255 * field c 5 5 / 31, 255 * field c 0 5 / 31,
    255 * field c 15 1]

/-- ARGB4444 unpacking as the spec describes the fields, with truncating
scaling of the 4-bit A,R,G,B fields at offsets 12, 8, 4, 0. -/
def argb4444trunc (c : Nat) : List Nat :=
  [255 * field c 8 4 / 15, 255 * field c 4 4 / 15, 255 * field c 0 4 / 15,
    255 * field c 12 4 / 15]

/-- RGB565 unpacking as the spec describes the fields, with truncating
scaling: 5-bit R at offset 11, 6-bit G at offset 5, 5-bit B at offset 0. -/
def rgb565trunc (c : Nat) : List Nat :=
  [255 * field c 11 5 / 31, 255 * field c 5 6 / 63, 255 * field c 0 5 / 31]

theorem unpack1555_eq_trunc (c : Nat) (hc : c < 65536) :
    unpack1555 c = argb1555trunc c := by
  unfold unpack1555 argb1555trunc field
  simp only [Nat.shiftRight_eq_div_pow, and31_eq_mod]
  norm_num
  have h : c / 32768 % 32 = c / 32768 % 2 := by omega
  rw [h]

theorem unpack4444_eq_trunc (c : Nat) :
    unpack4444 c = argb4444trunc c := by
  unfold unpack4444 argb4444trunc field
  simp only [Nat.shiftRight_eq_div_pow, and15_eq_mod]
  norm_num

theorem unpack565_eq_trunc (c : Nat) :
    unpack565 c = rgb565trunc c := by
  unfold unpack565 rgb565trunc field
  simp only [Nat.shiftRight_eq_div_pow, and31_eq_mod, and63_eq_mod]
  norm_num

/-! ## Evaluation helpers for concrete payloads -/

theorem replicate_getD_zero (n k : Nat) :
    (List.replicate n (0 : Nat)).getD k 0 = 0 := by
  rw [List.getD_eq_getElem?_getD, List.getElem?_replicate]
  split_ifs <;> rfl

theorem drop_replicate0 (k m : Nat) :
    (List.replicate m (0 : Nat)).drop k = List.replicate (m - k) 0 := by
  induction k generalizing m with
  | zero => simp
  | succ n ih =>
    cases m with
    | zero => simp
    | succ m2 =>
      rw [List.replicate_succ, List.drop_succ_cons, ih]
      congr 1
      omega

theorem vqBook_replicate (m : Nat) (hm : 2048 ≤ m) :
    vqBook (List.replicate m 0) = List.replicate 1024 0 := by
  unfold vqBook
  have h1 : (List.replicate m (0 : Nat)).take 2048 = List.replicate 2048 0 := by
    rw [List.take_replicate]
    congr 1
    omega
  rw [h1]
  exact words16_replicate 1024

theorem pairRows_one {α : Type} (f g : Nat → α) :
    pairRows f g 1 = [f 0, g 0] := by
  unfold pairRows
  rfl

/-! ## Remaining shared helpers -/

theorem flatMap_range_length_const {γ : Type} (f : Nat → List γ) (ch : Nat)
    (h : ∀ j, (f j).length = ch) :
    ∀ n, ((List.range n).flatMap f).length = n * ch := by
  intro n
  induction n with
  | zero => simp
  | succ m ih =>
    rw [List.range_succ, List.flatMap_append, List.length_append, ih]
    simp [h m]
    ring

theorem check_dims_ok {w h : Nat} (hw : w ≤ MAX_WIDTH) (hh : h ≤ MAX_HEIGHT) :
    check_dims w h = Except.ok () := by
  unfold check_dims verify
  rw [decide_eq_true hw, decide_eq_true hh]
  rfl

/-- Splitting `vq_decode` into codebook, index table and core. -/
theorem vq_decode_split (width height : Nat) (raw : List Nat)
    (d : Nat → List Nat)
    (hl : 2048 ≤ raw.length) (hb : width * height / 4 ≤ raw.length) :
    vq_decode width height raw d =
      vq_decode_core width height (words16 (raw.take 2048))
        (raw.drop (raw.length - width * height / 4)) d := by
  unfold vq_decode
  rw [if_pos hl]
  show vq_decode_core width height (words16 (raw.take 2048))
      (pysliceFrom raw ((raw.length : Int) - (width * height / 4 : Nat))) d = _
  rw [pysliceFrom_sub _ _ hb]

/-- A VQ decode of the all-zero 2049-byte payload at width 3, height 2:
the decode succeeds and silently yields 2-pixel rows. -/
theorem vq_decode_zero_3x2 :
    vq_decode 3 2 (List.replicate 2049 0) (fun c => [c]) =
      some [[0, 0], [0, 0]] := by
  have h := vq_decode_eq 3 2 (List.replicate 2049 0) (fun c => [c])
    (by simp)
    (by intro v hv; rw [List.eq_of_mem_replicate hv]; norm_num)
    (by intro i j hi hj
        norm_num at hi hj
        have hi0 : i = 0 := by omega
        have hj0 : j = 0 := by omega
        subst hi0; subst hj0
        decide)
  rw [h]
  have hone : (2 : Nat) / 2 = 1 := by norm_num
  rw [hone, pairRows_one]
  unfold vqTopRow vqBottomRow
  rw [vqBook_replicate 2049 (by norm_num)]
  have hr1 : List.range (3 / 2) = [0] := rfl
  simp only [hr1, List.flatMap_cons, List.flatMap_nil, List.append_nil,
    replicate_getD_zero]
  rfl

/-- A VQ decode of the all-zero 2052-byte payload at width 8, height 2:
the index lookup at block `(0, 2)` reads past the 4-byte index table. -/
theorem vq_decode_zero_8x2 :
    vq_decode 8 2 (List.replicate 2052 0) (fun c => [c]) = none := by
  rw [vq_decode_split 8 2 _ _ (by simp) (by simp)]
  have h1 : (List.replicate 2052 (0 : Nat)).take 2048 =
      List.replicate 2048 0 := by
    rw [List.take_replicate]
    norm_num
  rw [h1]
  have h2 : words16 (List.replicate 2048 (0 : Nat)) = List.replicate 1024 0 :=
    words16_replicate 1024
  rw [h2]
  have h3 : (List.replicate 2052 (0 : Nat)).drop
      ((List.replicate 2052 (0 : Nat)).length - 8 * 2 / 4) =
      List.replicate 4 0 := by
    rw [List.length_replicate, drop_replicate0]
  rw [h3]
  rfl

/-- A VQ decode at width 2, height 2 of a payload whose first four codebook
entries are the words 0, 1, 2, 3 and whose index byte is 0. -/
theorem vq_decode_distinct_2x2 :
    vq_decode 2 2 (([0, 0, 1, 0, 2, 0, 3, 0] ++ List.replicate 2040 0) ++ [0])
      (fun c => [c]) = some [[0, 2], [1, 3]] := by
  have hlenP : (([0, 0, 1, 0, 2, 0, 3, 0] ++ List.replicate 2040 0) ++
      [(0 : Nat)]).length = 2049 := by simp
  have h := vq_decode_eq 2 2
    (([0, 0, 1, 0, 2, 0, 3, 0] ++ List.replicate 2040 0) ++ [0])
    (fun c => [c])
    (by rw [hlenP])
    (by intro v hv
        rcases List.mem_append.mp hv with h8 | h1
        · rcases List.mem_append.mp h8 with hlist | hrep
          · fin_cases hlist <;> norm_num
          · rw [List.eq_of_mem_replicate hrep]; norm_num
        · fin_cases h1
          norm_num)
    (by intro i j hi hj
        norm_num at hi hj
        have hi0 : i = 0 := by omega
        have hj0 : j = 0 := by omega
        subst hi0; subst hj0
        decide)
  rw [h]
  have hone : (2 : Nat) / 2 = 1 := by norm_num
  rw [hone, pairRows_one]
  unfold vqTopRow vqBottomRow vqEntry
  have hbook : vqBook (([0, 0, 1, 0, 2, 0, 3, 0] ++
      List.replicate 2040 0) ++ [0]) =
      [0, 1, 2, 3] ++ List.replicate 1020 0 := by
    unfold vqBook
    rw [List.take_left' (by simp), words16_append _ _ (by norm_num)]
    have hw : words16 [0, 0, 1, 0, 2, 0, 3, 0] = [0, 1, 2, 3] := rfl
    rw [hw, words16_replicate 1020]
  have hlut : vqIndexTable 2 2 (([0, 0, 1, 0, 2, 0, 3, 0] ++
      List.replicate 2040 0) ++ [0]) = [0] := by
    unfold vqIndexTable
    rw [hlenP]
    have h2048 : (2049 : Nat) - 2 * 2 / 4 = 2048 := by norm_num
    rw [h2048, List.drop_left' (by simp)]
  rw [hbook, hlut]
  have hr1 : List.range (2 / 2) = [0] := rfl
  simp only [hr1, List.flatMap_cons, List.flatMap_nil, List.append_nil]
  have hm : morton 0 0 = 0 := rfl
  rw [hm]
  rfl

/-! ## Claim theorems -/

/-- C1: `morton` spreads the bits of `x` into the even positions and the bits
of `y` into the odd positions, is a bijection from `[0, 2^16) × [0, 2^16)`
onto `[0, 2^32)`, and takes the concrete values `morton 0 0 = 0`,
`morton 1 0 = 1`, `morton 0 1 = 2`, `morton 1 1 = 3`, `morton 3 3 = 15`. -/
theorem C1_morton_interleave_bijection :
    (∀ x y, x < 65536 → y < 65536 → ∀ k,
      (morton x y).testBit (2 * k) = x.testBit k ∧
      (morton x y).testBit (2 * k + 1) = y.testBit k) ∧
    (∀ x y a b, x < 65536 → y < 65536 → a < 65536 → b < 65536 →
      morton x y = morton a b → x = a ∧ y = b) ∧
    (∀ x y, x < 65536 → y < 65536 → morton x y < 4294967296) ∧
    (∀ n, n < 4294967296 → ∃ x y, x < 65536 ∧ y < 65536 ∧ morton x y = n) ∧
    morton 0 0 = 0 ∧ morton 1 0 = 1 ∧ morton 0 1 = 2 ∧ morton 1 1 = 3 ∧
    morton 3 3 = 15 := by
  refine ⟨fun x y hx hy k => morton_spread hx hy k,
    fun x y a b hx hy ha hb h => morton_inj hx hy ha hb h,
    fun x y hx hy => morton_lt_two_pow_32 x y,
    fun n hn => ?_, rfl, rfl, rfl, rfl, rfl⟩
  obtain ⟨hx, hy, hm⟩ := morton_surj_aux hn
  exact ⟨_, _, hx, hy, hm⟩

theorem C1_witness :
    ((morton 5 9).testBit (2 * 3) = (5 : Nat).testBit 3) ∧
    (∃ x y, x < 65536 ∧ y < 65536 ∧ morton x y = 7) ∧
    morton 5 9 < 4294967296 :=
  ⟨(C1_morton_interleave_bijection.1 5 9 (by norm_num) (by norm_num) 3).1,
   C1_morton_interleave_bijection.2.2.2.1 7 (by norm_num),
   C1_morton_interleave_bijection.2.2.1 5 9 (by norm_num) (by norm_num)⟩

/-- C2, counterexample: on the word `0x0C00` (R field = 3) the code computes
`int (255*3/31.0) = 24`, while the claimed `round (255*3/31)` is 25. -/
theorem C2_counterexample :
    unpack1555 3072 = [24, 0, 0, 0] ∧ specRound (255 * 3) 31 = 25 ∧
    (24 : Nat) ≠ 25 := ⟨rfl, rfl, by norm_num⟩

/-- C2, amended: the unpackers return channels in R,G,B,[A] order with the
claimed field layout, but scale with truncating division `⌊255·f/d⌋` instead
of rounding; the alpha of ARGB1555 is still exactly 0 or 255, and for the
4-bit fields of ARGB4444 truncation and rounding agree. -/
theorem C2_unpackers_truncating :
    ∀ c, c < 65536 →
      unpack1555 c = argb1555trunc c ∧
      unpack4444 c = argb4444trunc c ∧
      unpack565 c = rgb565trunc c ∧
      (255 * field c 15 1 = 0 ∨ 255 * field c 15 1 = 255) ∧
      (∀ f, f < 16 → 255 * f / 15 = specRound (255 * f) 15) := by
  intro c hc
  refine ⟨unpack1555_eq_trunc c hc, unpack4444_eq_trunc c,
    unpack565_eq_trunc c, ?_, ?_⟩
  · have h : field c 15 1 = 0 ∨ field c 15 1 = 1 := by
      unfold field
      omega
    rcases h with h | h <;> rw [h]
    · left; rfl
    · right; rfl
  · intro f hf
    interval_cases f <;> rfl

theorem C2_witness :
    unpack1555 65535 = argb1555trunc 65535 ∧
    unpack565 65535 = rgb565trunc 65535 :=
  ⟨(C2_unpackers_truncating 65535 (by norm_num)).1,
   (C2_unpackers_truncating 65535 (by norm_num)).2.2.1⟩

/-- C3, counterexample: with codebook entries 0..3 holding the words
0, 1, 2, 3 and a zero index byte, the 2×2 decode puts entries 0 and 2 on the
top row and 1 and 3 on the bottom row — not 0,1 on top and 2,3 below as the
claim states. -/
theorem C3_counterexample :
    vq_decode 2 2 (([0, 0, 1, 0, 2, 0, 3, 0] ++ List.replicate 2040 0) ++ [0])
      (fun c => [c]) = some [[0, 2], [1, 3]] ∧
    ([[0, 2], [1, 3]] : List (List Nat)) ≠ [[0, 1], [2, 3]] :=
  ⟨vq_decode_distinct_2x2, by decide⟩

/-- C3, amended: for even positive dimensions and a well-formed VQ payload
whose morton lookups stay inside the index table, each 2×2 block at grid
position `(i, j)` reads `entry = 4 * indexTable[interleave (i, j)]` and sends
codebook entries `+0`, `+2` to output row `2i` and entries `+1`, `+3` to
output row `2i+1`. -/
theorem C3_vq_block_rows (width height : Nat) (raw : List Nat)
    (d : Nat → List Nat)
    (hw : width % 2 = 0) (hh : height % 2 = 0)
    (hwpos : 0 < width) (hhpos : 0 < height)
    (hlen : 2048 + width * height / 4 ≤ raw.length)
    (hbytes : ∀ v ∈ raw, v < 256)
    (hidx : ∀ i j, i < height / 2 → j < width / 2 →
      morton i j < width * height / 4) :
    ∃ pix, vq_decode width height raw d = some pix ∧
      pix.length = 2 * (height / 2) ∧
      ∀ i, i < height / 2 →
        pix[2 * i]? = some (vqTopRow width height raw d i) ∧
        pix[2 * i + 1]? = some (vqBottomRow width height raw d i) := by
  refine ⟨_, vq_decode_eq width height raw d hlen hbytes hidx, ?_, ?_⟩
  · exact pairRows_length _ _ _
  · intro i hi
    exact ⟨pairRows_get_even _ _ _ i hi, pairRows_get_odd _ _ _ i hi⟩

theorem C3_witness :
    ∃ pix, vq_decode 2 2 (List.replicate 2049 0) (fun c => [c]) = some pix ∧
      pix.length = 2 * (2 / 2) ∧
      ∀ i, i < 2 / 2 →
        pix[2 * i]? =
          some (vqTopRow 2 2 (List.replicate 2049 0) (fun c => [c]) i) ∧
        pix[2 * i + 1]? =
          some (vqBottomRow 2 2 (List.replicate 2049 0) (fun c => [c]) i) :=
  C3_vq_block_rows 2 2 (List.replicate 2049 0) (fun c => [c]) rfl rfl
    (by norm_num) (by norm_num) (by simp)
    (by intro v hv; rw [List.eq_of_mem_replicate hv]; norm_num)
    (by intro i j hi hj
        norm_num at hi hj
        have hi0 : i = 0 := by omega
        have hj0 : j = 0 := by omega
        subst hi0; subst hj0
        decide)

/-- C4, counterexample: at width 2, height 3 — a payload exactly long enough
for the 6 pixel words — the padding to `max(2,3)² = 9` words does not keep the
morton addresses in bounds: pixel `(2, 1)` reads address `interleave (1, 2) = 9`
of the 9-entry list, so the decode fails instead of producing 3 rows. -/
theorem C4_counterexample :
    morton_decode 2 3 (List.replicate 12 0) (fun c => [c]) = none := by
  rfl

/-- C4, amended: when the larger dimension is a power of two (and the payload
holds the `width*height` pixel words), the tiled decode succeeds with exactly
`height` rows, row `i` lists `decoder (data[interleave (j, i)])` for
`j = 0..width-1` over the zero-padded trailing word block, and each row holds
`width` pixels. -/
theorem C4_tiled_shape (width height k : Nat) (raw : List Nat)
    (d : Nat → List Nat) (ch : Nat)
    (hk : max width height = 2 ^ k)
    (hlen : width * height * 2 ≤ raw.length)
    (hch : ∀ c, (d c).length = ch) :
    ∃ pix, morton_decode width height raw d = some pix ∧
      pix.length = height ∧
      (∀ i, i < height → pix[i]? = some (tiledRow width height raw d i)) ∧
      (∀ i, i < height →
        (tiledRow width height raw d i).length = width * ch) := by
  refine ⟨_, morton_decode_eq width height k raw d hk hlen, ?_, ?_, ?_⟩
  · simp
  · intro i hi
    rw [List.getElem?_map, List.getElem?_range hi]
    rfl
  · intro i hi
    unfold tiledRow
    rw [flatMap_range_length_const _ ch (fun j => hch _) width]

theorem C4_witness :
    ∃ pix, morton_decode 2 2 (List.replicate 8 0) (fun c => [c]) = some pix ∧
      pix.length = 2 ∧
      (∀ i, i < 2 → pix[i]? =
        some (tiledRow 2 2 (List.replicate 8 0) (fun c => [c]) i)) ∧
      (∀ i, i < 2 →
        (tiledRow 2 2 (List.replicate 8 0) (fun c => [c]) i).length = 2 * 1) :=
  C4_tiled_shape 2 2 1 (List.replicate 8 0) (fun c => [c]) 1
    (by norm_num) (by simp) (fun c => rfl)

/-- C5: each decoder reads only its trailing block (plus, for VQ, the leading
2048-byte codebook): payloads agreeing there decode identically. -/
theorem C5_trailing_only :
    (∀ width height raw1 raw2 d, width * height * 2 ≤ raw1.length →
      width * height * 2 ≤ raw2.length →
      raw1.drop (raw1.length - width * height * 2) =
        raw2.drop (raw2.length - width * height * 2) →
      morton_decode width height raw1 d = morton_decode width height raw2 d) ∧
    (∀ width height raw1 raw2 d, width * height * 2 ≤ raw1.length →
      width * height * 2 ≤ raw2.length →
      raw1.drop (raw1.length - width * height * 2) =
        raw2.drop (raw2.length - width * height * 2) →
      linear_decode width height raw1 d = linear_decode width height raw2 d) ∧
    (∀ width height raw1 raw2 d, 2048 ≤ raw1.length → 2048 ≤ raw2.length →
      width * height / 4 ≤ raw1.length → width * height / 4 ≤ raw2.length →
      raw1.take 2048 = raw2.take 2048 →
      raw1.drop (raw1.length - width * height / 4) =
        raw2.drop (raw2.length - width * height / 4) →
      vq_decode width height raw1 d = vq_decode width height raw2 d) :=
  ⟨morton_decode_tail_only, linear_decode_tail_only, vq_decode_head_tail_only⟩

theorem C5_witness :
    morton_decode 2 2 ([9] ++ List.replicate 8 0) (fun c => [c]) =
      morton_decode 2 2 (List.replicate 8 0) (fun c => [c]) :=
  C5_trailing_only.1 2 2 ([9] ++ List.replicate 8 0) (List.replicate 8 0)
    (fun c => [c]) (by simp) (by simp) rfl

/-- C6: validation fails exactly when width or height exceeds
`MAX_WIDTH = MAX_HEIGHT = 2^19` (so width `0x100000` fails), and passes for
all dimensions within the bound. -/
theorem C6_dimension_validation :
    (∀ width height, MAX_WIDTH < width ∨ MAX_HEIGHT < height →
      ∃ msg, check_dims width height = Except.error msg) ∧
    (∀ width height, width ≤ MAX_WIDTH → height ≤ MAX_HEIGHT →
      check_dims width height = Except.ok ()) ∧
    MAX_WIDTH = 2 ^ 19 ∧ MAX_HEIGHT = 2 ^ 19 ∧
    (∃ msg, check_dims 0x100000 16 = Except.error msg) := by
  have herr : ∀ width height, MAX_WIDTH < width ∨ MAX_HEIGHT < height →
      ∃ msg, check_dims width height = Except.error msg := by
    intro width height h
    unfold check_dims verify
    by_cases hw : width ≤ MAX_WIDTH
    · rw [decide_eq_true hw, decide_eq_false (by omega)]
      exact ⟨"height out of range", rfl⟩
    · rw [decide_eq_false hw]
      exact ⟨"width out of range", rfl⟩
  refine ⟨herr, fun w h hw hh => check_dims_ok hw hh,
    by norm_num [MAX_WIDTH], by norm_num [MAX_HEIGHT],
    herr 0x100000 16 (Or.inl (by norm_num [MAX_WIDTH]))⟩

theorem C6_witness :
    (∃ msg, check_dims 1048576 16 = Except.error msg) ∧
    check_dims 1024 512 = Except.ok () :=
  ⟨C6_dimension_validation.1 1048576 16 (Or.inl (by norm_num [MAX_WIDTH])),
   C6_dimension_validation.2.1 1024 512 (by norm_num [MAX_WIDTH])
     (by norm_num [MAX_HEIGHT])⟩

/-- C7: the dispatcher returns the unsupported-encoding result (`none`)
exactly on pixel-encoding codes outside {ARGB1555, RGB565, ARGB4444}; on the
three implemented codes it always returns a decode attempt with its channel
tag. `BUMP` in particular is rejected. -/
theorem C7_unsupported_encoding :
    (∀ px fmt width height data, px ≠ ARGB1555 → px ≠ RGB565 →
      px ≠ ARGB4444 → pvr_dispatch px fmt width height data = none) ∧
    (∀ px fmt width height data,
      px = ARGB1555 ∨ px = RGB565 ∨ px = ARGB4444 →
      ∃ r tag, pvr_dispatch px fmt width height data = some (r, tag)) ∧
    (∀ fmt width height data,
      pvr_dispatch BUMP fmt width height data = none) := by
  refine ⟨?_, ?_, ?_⟩
  · intro px fmt width height data h0 h1 h2
    unfold pvr_dispatch
    rw [if_neg h0, if_neg h2, if_neg h1]
  · intro px fmt width height data h
    unfold pvr_dispatch
    rcases h with h | h | h
    · rw [if_pos h]
      exact ⟨_, _, rfl⟩
    · subst h
      rw [if_neg (by norm_num [RGB565, ARGB1555]),
        if_neg (by norm_num [RGB565, ARGB4444]), if_pos rfl]
      exact ⟨_, _, rfl⟩
    · subst h
      rw [if_neg (by norm_num [ARGB4444, ARGB1555]), if_pos rfl]
      exact ⟨_, _, rfl⟩
  · intro fmt width height data
    unfold pvr_dispatch
    rw [if_neg (by norm_num [BUMP, ARGB1555]),
      if_neg (by norm_num [BUMP, ARGB4444]),
      if_neg (by norm_num [BUMP, RGB565])]

theorem C7_witness :
    pvr_dispatch 4 1 8 8 [] = none ∧
    (∃ r tag, pvr_dispatch 0 1 8 8 [] = some (r, tag)) :=
  ⟨C7_unsupported_encoding.2.2 1 8 8 [],
   C7_unsupported_encoding.2.1 0 1 8 8 [] (Or.inl rfl)⟩

/-- C8: at width 3 and height 2 (odd width) the VQ decoder raises no error:
it silently returns a 2-row matrix whose rows hold 2 pixels instead of 3 —
the claimed `DimensionError` does not exist in the code. -/
theorem C8_vq_silent_truncation :
    vq_decode 3 2 (List.replicate 2049 0) (fun c => [c]) =
      some [[0, 0], [0, 0]] ∧
    ∀ row ∈ [[0, 0], [0, 0]], row.length ≠ 3 :=
  ⟨vq_decode_zero_3x2, by decide⟩

/-- C9: header-derived dimensions are 16-bit values, so they always pass the
`2^19` validation: the width/height failure branch is unreachable from the
header path. -/
theorem C9_header_dims_pass_validation :
    ∀ hdr w h, (∀ v ∈ hdr, v < 256) →
      header_width hdr = some w → header_height hdr = some h →
      w < 65536 ∧ h < 65536 ∧ check_dims w h = Except.ok () := by
  intro hdr w h hb hw hh
  unfold header_width at hw
  unfold header_height at hh
  cases e8 : hdr[8]? with
  | none => rw [e8] at hw; cases hw
  | some lo =>
    cases e9 : hdr[9]? with
    | none => rw [e8, e9] at hw; cases hw
    | some hi =>
      rw [e8, e9] at hw
      cases e10 : hdr[10]? with
      | none => rw [e10] at hh; cases hh
      | some lo2 =>
        cases e11 : hdr[11]? with
        | none => rw [e10, e11] at hh; cases hh
        | some hi2 =>
          rw [e10, e11] at hh
          have hlo := hb lo (List.getElem?_mem e8)
          have hhi := hb hi (List.getElem?_mem e9)
          have hlo2 := hb lo2 (List.getElem?_mem e10)
          have hhi2 := hb hi2 (List.getElem?_mem e11)
          have hwv : w = lo + 256 * hi := by
            simpa using hw.symm
          have hhv : h = lo2 + 256 * hi2 := by
            simpa using hh.symm
          have hw16 : w < 65536 := by omega
          have hh16 : h < 65536 := by omega
          refine ⟨hw16, hh16, check_dims_ok ?_ ?_⟩
          · show w ≤ MAX_WIDTH
            unfold MAX_WIDTH
            omega
          · show h ≤ MAX_HEIGHT
            unfold MAX_HEIGHT
            omega

theorem C9_witness :
    (255 : Nat) < 65536 ∧ (255 : Nat) < 65536 ∧
      check_dims 255 255 = Except.ok () :=
  C9_header_dims_pass_validation [0, 0, 0, 0, 0, 0, 0, 0, 255, 0, 255, 0]
    255 255 (by intro v hv; fin_cases hv <;> norm_num) rfl rfl

/-- C10: every codebook access of the VQ decoder is in bounds once the index
lookup succeeds (an index byte `b < 256` yields entries `4b..4b+3 < 1024`);
for square power-of-two dimensions `2^(k+1)` the index lookups stay inside the
`width*height/4`-entry table; but for the non-square power-of-two pair
width 8, height 2 a lookup reads past the 4-byte table and the decode fails. -/
theorem C10_vq_bounds :
    (∀ book lut d i j, book.length = 1024 → (∀ v ∈ lut, v < 256) →
      morton i j < lut.length → (vqBlock book lut d i j).isSome = true) ∧
    (∀ k i j, i < 2 ^ k → j < 2 ^ k →
      morton i j < 2 ^ (k + 1) * 2 ^ (k + 1) / 4) ∧
    vq_decode 8 2 (List.replicate 2052 0) (fun c => [c]) = none := by
  refine ⟨?_, ?_, vq_decode_zero_8x2⟩
  · intro book lut d i j hbook hv hm
    rw [vqBlock_eq d hbook hv hm]
    rfl
  · intro k i j hi hj
    have h1 : morton i j < 2 ^ k * 2 ^ k := morton_lt_sq hi hj
    have h2 : 2 ^ (k + 1) * 2 ^ (k + 1) = 2 ^ k * 2 ^ k * 4 := by
      rw [Nat.pow_succ]
      ring
    rw [h2, Nat.mul_div_cancel _ (by norm_num)]
    exact h1

theorem C10_witness :
    (vqBlock (List.replicate 1024 0) [5] (fun c => [c]) 0 0).isSome = true ∧
    morton 1 1 < 2 ^ 2 * 2 ^ 2 / 4 :=
  ⟨C10_vq_bounds.1 (List.replicate 1024 0) [5] (fun c => [c]) 0 0
      (by simp) (by intro v hv; fin_cases hv; norm_num) (by decide),
   C10_vq_bounds.2.1 1 1 1 (by norm_num) (by norm_num)⟩

end PVR
